/-
Verification of the derivative-evaluation backend of the FFC code generator
(module `ffc/evaluatebasisderivatives.py`).

The Python module emits C-like code; the definitions below are a shallow
embedding of the computation that the emitted code performs, traced loop by
loop from the generator source.  Matrices are entry functions `ℕ → ℕ → ℚ`
with explicit summation bounds, buffers are functions `ℕ → ℚ`, and the
generator's `error(...)` aborts are `Option.none`.

External collaborators (the basis-value evaluator and the geometry provider)
are parameters: `basis` is the expansion basis evaluated at the reference
point, and `J`, `Jinv`, `detJ` come from the geometry provider.

A few format snippets used by the generator live in modules that are not part
of this source tree (`ffc/cpp.py`, `ffc/evaluatebasis.py`); definitions for
those are modelled from the specification and are marked as such in their
doc comments.
-/
import Mathlib

namespace FFC

/-- Square-matrix data as an entry function; all sums carry explicit bounds. -/
abbrev Mat : Type := ℕ → ℕ → ℚ

/-- The identity matrix, as emitted by the generator when it declares and
resets the `dmats` accumulator (`numpy.eye`, and `_reset_dmats`). -/
def idMat : Mat := fun i j => if i = j then 1 else 0

/-- Matrix product with explicit inner dimension `m`. -/
def matMul (m : ℕ) (A B : Mat) : Mat :=
  fun i j => ∑ k ∈ Finset.range m, A i k * B k j

/-- Product of a list of matrices, `matProd m [A, B, C] = A·(B·(C·I))`. -/
def matProd (m : ℕ) (l : List Mat) : Mat :=
  l.foldr (matMul m) idMat

/-- View the top-left `m × m` corner of a `Mat` as a Mathlib matrix. -/
def toMatrix (m : ℕ) (A : Mat) : Matrix (Fin m) (Fin m) ℚ :=
  Matrix.of fun i j => A i.1 j.1

/-- The mapping kinds dispatched on in `_compute_reference_derivatives`
(strings "affine", "contravariant piola", "covariant piola"; any other
string is a generation-time error, so the supported set is closed). -/
inductive MappingKind : Type
  | affine
  | contravariantPiola
  | covariantPiola
deriving DecidableEq

/-- The per-element data the generator reads from its `data` dictionary:
the FiniteElementDescriptor of the specification. `dmats i` is the element's
i-th differentiation matrix (size `numExpansionMembers²`), `coefficients c d s`
is entry `[c][d][s]` of the coefficient tables. -/
structure ElementData : Type where
  valueShape : List ℕ
  spaceDimension : ℕ
  topologicalDimension : ℕ
  numExpansionMembers : ℕ
  dmats : ℕ → Mat
  coefficients : ℕ → ℕ → ℕ → ℚ
  mapping : MappingKind

/-- `_compute_num_derivatives`: the emitted code sets `num_derivatives = 1`
and multiplies by the topological dimension once per loop iteration,
`n` iterations in total. -/
def numDerivatives (d n : ℕ) : ℕ :=
  (List.range n).foldl (fun acc _ => acc * d) 1

/-- Base-`d` digits of `r`, width `n`, most-significant digit first. -/
def baseDigits (d : ℕ) : ℕ → ℕ → List ℕ
  | 0, _ => []
  | n + 1, r => baseDigits d n (r / d) ++ [r % d]

/-- Modelled from the spec: the CombinationTable produced by the
`format["combinations"]` snippet (emitted by `_generate_combinations`; the
snippet itself lives in `ffc/cpp.py`, which is not part of this source tree).
Entry `r` is the base-`d` digit expansion of `r` with `n` digits,
most-significant first; for `n = 0` the table is a single empty tuple. -/
def generateCombinations (d n : ℕ) : List (List ℕ) :=
  (List.range (d ^ n)).map (baseDigits d n)

/-- Value of a most-significant-first digit list in base `d`. -/
def digitsVal (d : ℕ) (l : List ℕ) : ℕ :=
  l.foldl (fun acc c => acc * d + c) 0

/-- `_tabulate_dmats`: the constant table emitted for spatial direction `i`
is `numpy.transpose(data["dmats"][i])`, so entry `[t][s]` of the emitted
table is entry `[s][t]` of the descriptor's matrix. -/
def tabulateDmats (data : ElementData) (i : ℕ) : Mat :=
  fun t s => data.dmats i s t

/-- One iteration of the derivative-order loop emitted by `_compute_dmats`
(`_update_dmats` then `_dmats_product`): `dmats_old` is set to the current
accumulator, the accumulator is cleared, and for the direction `c` selected
by the current combination digit the loops emit
`dmats[t][u] += dmats_c[t][tu] * dmats_old[tu][u]` over `tu < m`,
where `dmats_c` is the emitted (transposed) table for direction `c`. -/
def dmatsProductStep (data : ElementData) (c : ℕ) (M : Mat) : Mat :=
  fun t u => ∑ tu ∈ Finset.range data.numExpansionMembers,
    tabulateDmats data c t tu * M tu u

/-- `_compute_dmats`: for one combination the accumulator is reset to the
identity (`_reset_dmats`) and the digits of the combination are replayed in
index order `s = 0..n-1`, each step applying `dmatsProductStep` with the
digit `combinations[r][s]`. -/
def computeDmats (data : ElementData) (digits : List ℕ) : Mat :=
  digits.foldl (fun M c => dmatsProductStep data c M) idMat

/-- The component-count dispatch at the top of `_compute_reference_derivatives`
and `_transform_derivatives`: an empty `value_shape` means one component, a
length-one shape means `shape[0]` components, and any longer shape aborts
generation with `error("Tensor valued elements are not supported yet")`. -/
def numComponents : List ℕ → Option ℕ
  | [] => some 1
  | [k] => some k
  | _ => none

/-- The reference-derivative accumulation emitted by
`_compute_reference_derivatives` for component `c` and one combination with
digit list `digits`:
`derivatives[c*N + r] += coefficients[c][dof][s] * dmats[s][t] * basisvalues[t]`
summed over `s, t < m`, starting from the zero-reset array. -/
def computeReferenceDerivatives (data : ElementData) (dof : ℕ) (basis : ℕ → ℚ)
    (digits : List ℕ) (c : ℕ) : ℚ :=
  ∑ s ∈ Finset.range data.numExpansionMembers,
    ∑ t ∈ Finset.range data.numExpansionMembers,
      data.coefficients c dof s * computeDmats data digits s t * basis t

/-- The mapping step emitted inside the combination loop of
`_compute_reference_derivatives`: affine emits nothing; contravariant Piola
emits `ref[i] = (1/detJ) * (J[i][0]*tmp0 + ... )`; covariant Piola emits
`ref[i] = Jinv[0][i]*tmp0 + ...`, the inner products running over the
topological dimension `d`. -/
def piolaTransform (mapping : MappingKind) (J Jinv : Mat) (detJ : ℚ) (d : ℕ)
    (ref : ℕ → ℚ) : ℕ → ℚ :=
  match mapping with
  | .affine => ref
  | .contravariantPiola => fun i => detJ⁻¹ * ∑ j ∈ Finset.range d, J i j * ref j
  | .covariantPiola => fun i => ∑ j ∈ Finset.range d, Jinv j i * ref j

/-- Reference derivatives of one combination after the element's mapping step
(the in-place update of the `derivatives` array inside the combination loop). -/
def mappedReferenceDerivatives (data : ElementData) (dof : ℕ) (basis : ℕ → ℚ)
    (J Jinv : Mat) (detJ : ℚ) (digits : List ℕ) : ℕ → ℚ :=
  piolaTransform data.mapping J Jinv detJ data.topologicalDimension
    (computeReferenceDerivatives data dof basis digits)

/-- Modelled from the spec: the geometric transform matrix built by the
`format["transform snippet"]` code emitted by `_generate_transform` (the
snippet itself lives in `ffc/cpp.py`, which is not part of this source tree):
`T[r][r'] = ∏_{k<n} Jinv[combinations[r][k]][combinations[r'][k]]`. -/
def transformMatrix (Jinv : Mat) (d n : ℕ) (r rp : ℕ) : ℚ :=
  ∏ k ∈ Finset.range n,
    Jinv ((baseDigits d n r).getD k 0) ((baseDigits d n rp).getD k 0)

/-- `_transform_derivatives` for component `i`, derivative combination `r`:
the emitted loops accumulate
`values[(sum_value_dim + i)*N + r] += transform[r][s] * derivatives[i*N + s]`
over `s < N` where `N` is the number of derivatives. -/
def transformDerivatives (data : ElementData) (dof : ℕ) (basis : ℕ → ℚ)
    (J Jinv : Mat) (detJ : ℚ) (d n : ℕ) (i r : ℕ) : ℚ :=
  ∑ s ∈ Finset.range (numDerivatives d n),
    transformMatrix Jinv d n r s *
      mappedReferenceDerivatives data dof basis J Jinv detJ (baseDigits d n s) i

/-- The writes of one sub-element into the shared `values` buffer: the block
of `C * N` entries starting at flat index `off * N` (component offset `off`,
written at `values[(off + i)*N + r]`), zero outside the block. -/
def blockContrib (C N off : ℕ) (f : ℕ → ℕ → ℚ) : ℕ → ℚ :=
  fun idx =>
    if off * N ≤ idx ∧ idx < (off + C) * N ∧ 0 < N then
      f (idx / N - off) (idx % N)
    else 0

/-- The per-element value dimension read by `_mixed_elements` and
`_reset_values`: `sum(data["value_shape"] or (1,))`. -/
def valueDim (shape : List ℕ) : ℕ :=
  match shape with
  | [] => 1
  | _ => shape.sum

/-- `_mixed_elements`: walk the sub-elements keeping the running component
offset `svd` and dof offset `ssd`; each sub-element's code is wrapped in the
guard `ssd <= dof && dof <= ssd + space_dim - 1` (emitted by
`format["dof map if"]`; written here in the equivalent half-open form), and
its body contributes its block with the local dof `dof - ssd`
(`_map_dof(ssd)` is modelled from the spec: local dof = global − dof offset).
Component counting aborts with `none` on tensor-valued sub-elements.
The result is the pointwise sum of all contributions over the zero-reset
buffer: the emitted statements are `+=` accumulations, never overwrites. -/
def mixedElements (g : ℕ) (J Jinv : Mat) (detJ : ℚ) (d n : ℕ) :
    List (ElementData × (ℕ → ℚ)) → ℕ → ℕ → Option (ℕ → ℚ)
  | [], _, _ => some fun _ => 0
  | (data, basis) :: rest, svd, ssd =>
      (numComponents data.valueShape).bind fun C =>
        (mixedElements g J Jinv detJ d n rest
            (svd + valueDim data.valueShape) (ssd + data.spaceDimension)).bind
          fun tail =>
            some fun idx =>
              (if ssd ≤ g ∧ g < ssd + data.spaceDimension then
                blockContrib C (numDerivatives d n) svd
                  (transformDerivatives data (g - ssd) basis J Jinv detJ d n)
              else fun _ => 0) idx + tail idx

/-- `data_list[0]["topological_dimension"]`, the dimension the single-dof
entry point uses for the derivative count, combinations and transform. -/
def headTopDim (elems : List (ElementData × (ℕ → ℚ))) : ℕ :=
  (elems.head?.map fun e => e.1.topologicalDimension).getD 0

/-- `_evaluate_basis_derivatives`, the single-dof entry point: after
`_reset_values` zeroes the buffer once, a single element contributes its
block at offset 0 with no dof guard (`_map_dof(0)` maps the global dof to
itself), while a composite element goes through `_mixed_elements`.  The
topological dimension used for the derivative count, the combinations and
the transform is that of `data_list[0]`.  Each element's expansion basis
values at the mapped reference point are supplied alongside it (the
basis-value evaluator is an external collaborator). -/
def evaluateBasisDerivatives (elems : List (ElementData × (ℕ → ℚ))) (g : ℕ)
    (J Jinv : Mat) (detJ : ℚ) (n : ℕ) : Option (ℕ → ℚ) :=
  let d := headTopDim elems
  match elems with
  | [(data, basis)] =>
      (numComponents data.valueShape).map fun C =>
        blockContrib C (numDerivatives d n) 0
          (transformDerivatives data g basis J Jinv detJ d n)
  | _ => mixedElements g J Jinv detJ d n elems 0 0

/-- Total value dimension of a composite element
(`sum(sum(data["value_shape"] or (1,)) for data in data_list)`). -/
def totalValueDim (elems : List (ElementData × (ℕ → ℚ))) : ℕ :=
  (elems.map fun e => valueDim e.1.valueShape).sum

/-- Total space dimension of a composite element. -/
def totalSpaceDim (elems : List (ElementData × (ℕ → ℚ))) : ℕ :=
  (elems.map fun e => e.1.spaceDimension).sum

/-- `_evaluate_basis_derivatives_all`: when the total space dimension is 1
the emitted code is a single call `evaluate_basis_derivatives(0, values)`;
otherwise it loops the dofs, calling the single-dof evaluator into a helper
array and copying `dof_vals[s]` to `values[r*num_vals + s]` for
`s < num_vals = value_shape * num_derivatives`. -/
def evaluateBasisDerivativesAll (elems : List (ElementData × (ℕ → ℚ)))
    (J Jinv : Mat) (detJ : ℚ) (n : ℕ) : Option (ℕ → ℚ) :=
  let d := headTopDim elems
  let numVals := totalValueDim elems * numDerivatives d n
  if totalSpaceDim elems = 1 then
    evaluateBasisDerivatives elems 0 J Jinv detJ n
  else
    (List.range (totalSpaceDim elems)).foldlM
      (fun v r => (evaluateBasisDerivatives elems r J Jinv detJ n).map
        fun dv idx =>
          if r * numVals ≤ idx ∧ idx < r * numVals + numVals then
            dv (idx - r * numVals)
          else v idx)
      fun _ => 0

/-- Modelled from the spec: the plain (order-0) basis evaluation performed by
`evaluate_basis` (module `ffc/evaluatebasis.py`, which is not part of this
source tree): the basis value for component `c` and dof `d` is
`coefficients[c][d] · expansion_values`. -/
def basisValue (data : ElementData) (dof : ℕ) (basis : ℕ → ℚ) (c : ℕ) : ℚ :=
  ∑ s ∈ Finset.range data.numExpansionMembers,
    data.coefficients c dof s * basis s

/-- The pure effect of one iteration of the dof loop emitted by
`_evaluate_basis_derivatives_all`: copy dof `r`'s helper values into
`values[r*num_vals + s]` for `s < num_vals`, leaving other entries alone. -/
def writeStep (elems : List (ElementData × (ℕ → ℚ))) (J Jinv : Mat) (detJ : ℚ)
    (n nv : ℕ) (v : ℕ → ℚ) (r : ℕ) : ℕ → ℚ :=
  fun idx =>
    if r * nv ≤ idx ∧ idx < r * nv + nv then
      (evaluateBasisDerivatives elems r J Jinv detJ n).getD (fun _ => 0)
        (idx - r * nv)
    else v idx

/-- A one-component affine element used by concrete witnesses. -/
def affineUnitElement : ElementData :=
  ⟨[], 1, 1, 1, fun _ _ _ => 0, fun _ _ _ => 1, MappingKind.affine⟩

/-- A scalar affine element with `k` degrees of freedom, used for concrete
routing checks. -/
def scalEl (k : ℕ) : ElementData :=
  ⟨[], k, 1, 1, fun _ _ _ => 0, fun _ _ _ => 1, MappingKind.affine⟩

/-- A two-component covariant-Piola element with a single expansion member. -/
def covEl : ElementData :=
  ⟨[2], 2, 2, 1, fun _ _ _ => 0, fun c _ _ => if c = 0 then 1 else 0,
    MappingKind.covariantPiola⟩

/-- A concrete non-identity inverse Jacobian. -/
def covJinv : Mat := fun j i => if j = 0 ∧ i = 0 then 2 else 0

/-- A concrete tensor-valued element (`value_shape = (2, 2)`). -/
def tensorEl : ElementData :=
  ⟨[2, 2], 1, 1, 1, fun _ _ _ => 0, fun _ _ _ => 1, MappingKind.affine⟩

/-- A one-dof element whose basis is not constant: `space_dimension = 1`
but its differentiation matrix is the nonzero 1×1 matrix `[[2]]`. -/
def fakeConstEl : ElementData :=
  ⟨[], 1, 1, 1, fun _ _ _ => 2, fun _ _ _ => 1, MappingKind.affine⟩

/-! ### The derivative count and the combination table -/

theorem numDerivatives_eq_pow (d n : ℕ) : numDerivatives d n = d ^ n := by
  induction n with
  | zero => rfl
  | succ n ih =>
    simp only [numDerivatives, List.range_succ, List.foldl_append, List.foldl_cons,
      List.foldl_nil]
    rw [show (List.range n).foldl (fun acc _ => acc * d) 1 = numDerivatives d n from rfl,
      ih, pow_succ]

theorem baseDigits_length (d : ℕ) : ∀ n r, (baseDigits d n r).length = n := by
  intro n
  induction n with
  | zero => intro r; rfl
  | succ n ih => intro r; simp [baseDigits, ih]

theorem baseDigits_lt (d : ℕ) (hd : 0 < d) :
    ∀ n r c, c ∈ baseDigits d n r → c < d := by
  intro n
  induction n with
  | zero => intro r c hc; simp [baseDigits] at hc
  | succ n ih =>
    intro r c hc
    simp only [baseDigits, List.mem_append, List.mem_singleton] at hc
    rcases hc with hc | hc
    · exact ih _ c hc
    · subst hc; exact Nat.mod_lt _ hd

theorem digitsVal_append_single (d : ℕ) (l : List ℕ) (c : ℕ) :
    digitsVal d (l ++ [c]) = digitsVal d l * d + c := by
  simp [digitsVal, List.foldl_append]

theorem digitsVal_baseDigits (d : ℕ) :
    ∀ n r, r < d ^ n → digitsVal d (baseDigits d n r) = r := by
  intro n
  induction n with
  | zero =>
    intro r hr
    have : r = 0 := Nat.lt_one_iff.mp (by simpa using hr)
    subst this; rfl
  | succ n ih =>
    intro r hr
    have hd : 0 < d := by
      rcases Nat.eq_zero_or_pos d with h | h
      · subst h; simp at hr
      · exact h
    have hdiv : r / d < d ^ n := by
      rw [Nat.div_lt_iff_lt_mul hd]
      calc r < d ^ (n + 1) := hr
        _ = d ^ n * d := pow_succ d n
    rw [baseDigits, digitsVal_append_single, ih _ hdiv, Nat.mul_comm]
    exact Nat.div_add_mod r d

theorem generateCombinations_length (d n : ℕ) :
    (generateCombinations d n).length = d ^ n := by
  simp [generateCombinations]

theorem generateCombinations_getElem (d n r : ℕ) (hr : r < d ^ n) :
    (generateCombinations d n)[r]? = some (baseDigits d n r) := by
  simp [generateCombinations, List.getElem?_map, List.getElem?_range, hr]

/-- C5: `count_derivatives(d, n)` computes exactly `d^n` by successive
multiplications, and the combination table has `d^n` entries, each an ordered
`n`-tuple of integers below `d`; entry `r` is the width-`n` base-`d` digit
expansion of `r`, most-significant first, and reading the digits back gives
`r`, so the table is in bijection with the base-`d` integers of width `n`;
for `n = 0` the table is a single empty tuple. -/
theorem count_derivatives_and_combinations (d n : ℕ) (hd : 1 ≤ d) :
    numDerivatives d n = d ^ n ∧
    (generateCombinations d n).length = d ^ n ∧
    (∀ l ∈ generateCombinations d n, l.length = n ∧ ∀ c ∈ l, c < d) ∧
    (∀ r, r < d ^ n → (generateCombinations d n)[r]? = some (baseDigits d n r) ∧
      digitsVal d (baseDigits d n r) = r) ∧
    generateCombinations d 0 = [[]] := by
  refine ⟨numDerivatives_eq_pow d n, generateCombinations_length d n, ?_, ?_, rfl⟩
  · intro l hl
    simp only [generateCombinations, List.mem_map] at hl
    obtain ⟨r, _, rfl⟩ := hl
    exact ⟨baseDigits_length d n r, fun c hc => baseDigits_lt d hd n r c hc⟩
  · intro r hr
    exact ⟨generateCombinations_getElem d n r hr, digitsVal_baseDigits d n r hr⟩

/-- Witness for C5, at `d = 2`, `n = 3`. -/
theorem count_derivatives_and_combinations_witness :
    numDerivatives 2 3 = 2 ^ 3 :=
  (count_derivatives_and_combinations 2 3 (by decide)).1

/-! ### The differentiation-matrix chain -/

theorem dmatsProductStep_eq_matMul (data : ElementData) (c : ℕ) (M : Mat) :
    dmatsProductStep data c M
      = matMul data.numExpansionMembers (tabulateDmats data c) M := rfl

theorem computeDmats_eq_matProd (data : ElementData) (digits : List ℕ) :
    computeDmats data digits
      = matProd data.numExpansionMembers
          (digits.reverse.map (tabulateDmats data)) := by
  suffices h : ∀ (l : List ℕ) (M : Mat),
      l.foldl (fun M c => dmatsProductStep data c M) M
        = (l.reverse.map (tabulateDmats data)).foldr
            (matMul data.numExpansionMembers) M by
    exact h digits idMat
  intro l
  induction l with
  | nil => intro M; rfl
  | cons c l ih =>
    intro M
    simp only [List.foldl_cons, List.reverse_cons, List.map_append, List.foldr_append,
      List.map_cons, List.map_nil, List.foldr_cons, List.foldr_nil]
    rw [ih, dmatsProductStep_eq_matMul]

/-- C10: the per-direction table emitted by `_tabulate_dmats` is the
transpose of the descriptor's `dmats[i]`, and the accumulation loops emitted
by `_dmats_product` (`new[t][u] += table_i[t][s] * old[s][u]`) compute exactly
matrix multiplication by that transposed table. -/
theorem tabulate_dmats_transposed (data : ElementData) (i c : ℕ) (M : Mat) :
    toMatrix data.numExpansionMembers (tabulateDmats data i)
      = (toMatrix data.numExpansionMembers (data.dmats i)).transpose ∧
    toMatrix data.numExpansionMembers (dmatsProductStep data c M)
      = toMatrix data.numExpansionMembers (tabulateDmats data c)
          * toMatrix data.numExpansionMembers M := by
  constructor
  · ext a b; rfl
  · ext a b
    rw [Matrix.mul_apply]
    simp only [toMatrix, dmatsProductStep, Matrix.of_apply]
    exact (Fin.sum_univ_eq_sum_range
      (fun k => tabulateDmats data c a.1 k * M k b.1) data.numExpansionMembers).symm

/-- C1: for one combination with digits `c_0, …, c_{n-1}` the engine starts
from the identity matrix (`computeDmats` folds from `idMat`, recomputed for
every combination) and left-multiplies at step `k` by the engine's
differentiation matrix selected by digit `c_k`, so the final accumulator is
the product `dmats[c_{n-1}] · … · dmats[c_0]` of the selected per-direction
matrices (the tables emitted by `_tabulate_dmats`); the reference value of
component `c` is then `Σ_s Σ_t coefficients[c][dof][s] · M[s][t] ·
basisvalues[t]`. -/
theorem reference_derivative_chain (data : ElementData) (dof : ℕ)
    (basis : ℕ → ℚ) (digits : List ℕ) (c : ℕ) :
    computeDmats data digits
      = matProd data.numExpansionMembers
          (digits.reverse.map (tabulateDmats data)) ∧
    computeReferenceDerivatives data dof basis digits c
      = ∑ s ∈ Finset.range data.numExpansionMembers,
          ∑ t ∈ Finset.range data.numExpansionMembers,
            data.coefficients c dof s
              * matProd data.numExpansionMembers
                  (digits.reverse.map (tabulateDmats data)) s t
              * basis t := by
  refine ⟨computeDmats_eq_matProd data digits, ?_⟩
  unfold computeReferenceDerivatives
  rw [computeDmats_eq_matProd]

/-! ### Piola component mixing -/

/-- C6: affine mapping applies no mixing; contravariant Piola computes
`physical[i] = (1/det J) Σ_j J[i][j] · reference[j]`; covariant Piola
computes `physical[i] = Σ_j Jinv[j][i] · reference[j]`; and the mixing
depends on the combination only through the reference values of that same
combination, so it acts independently and identically for every combination. -/
theorem piola_component_mixing (data : ElementData) (dof : ℕ) (basis : ℕ → ℚ)
    (J Jinv : Mat) (detJ : ℚ) (digits : List ℕ) :
    (data.mapping = MappingKind.affine →
      mappedReferenceDerivatives data dof basis J Jinv detJ digits
        = computeReferenceDerivatives data dof basis digits) ∧
    (data.mapping = MappingKind.contravariantPiola → ∀ i,
      mappedReferenceDerivatives data dof basis J Jinv detJ digits i
        = detJ⁻¹ * ∑ j ∈ Finset.range data.topologicalDimension,
            J i j * computeReferenceDerivatives data dof basis digits j) ∧
    (data.mapping = MappingKind.covariantPiola → ∀ i,
      mappedReferenceDerivatives data dof basis J Jinv detJ digits i
        = ∑ j ∈ Finset.range data.topologicalDimension,
            Jinv j i * computeReferenceDerivatives data dof basis digits j) ∧
    (∀ digits' : List ℕ,
      (∀ j, computeReferenceDerivatives data dof basis digits j
          = computeReferenceDerivatives data dof basis digits' j) →
      ∀ i, mappedReferenceDerivatives data dof basis J Jinv detJ digits i
          = mappedReferenceDerivatives data dof basis J Jinv detJ digits' i) := by
  refine ⟨?_, ?_, ?_, ?_⟩
  · intro h; rw [mappedReferenceDerivatives, h]; rfl
  · intro h i; rw [mappedReferenceDerivatives, h]; rfl
  · intro h i; rw [mappedReferenceDerivatives, h]; rfl
  · intro digits' hjd i
    have hfun : computeReferenceDerivatives data dof basis digits
        = computeReferenceDerivatives data dof basis digits' := funext hjd
    rw [mappedReferenceDerivatives, hfun, mappedReferenceDerivatives]

/-! ### Buffer blocks -/

theorem blockContrib_apply (C N off i r : ℕ) (f : ℕ → ℕ → ℚ)
    (hi : i < C) (hr : r < N) :
    blockContrib C N off f ((off + i) * N + r) = f i r := by
  have hN : 0 < N := lt_of_le_of_lt (Nat.zero_le r) hr
  have h1 : off * N ≤ (off + i) * N + r :=
    le_trans (Nat.mul_le_mul_right N (Nat.le_add_right off i)) (Nat.le_add_right _ r)
  have h2 : (off + i) * N + r < (off + C) * N := by
    calc (off + i) * N + r < (off + i) * N + N := by omega
      _ = (off + i + 1) * N := by ring
      _ ≤ (off + C) * N := Nat.mul_le_mul_right N (by omega)
  unfold blockContrib
  rw [if_pos ⟨h1, h2, hN⟩]
  congr 1
  · rw [Nat.mul_comm (off + i) N, Nat.mul_add_div hN, Nat.div_eq_of_lt hr]
    omega
  · rw [Nat.mul_comm (off + i) N, Nat.mul_add_mod, Nat.mod_eq_of_lt hr]

theorem blockContrib_order_zero (C : ℕ) (f : ℕ → ℕ → ℚ) (c : ℕ) (hc : c < C) :
    blockContrib C 1 0 f c = f c 0 := by
  have h := blockContrib_apply C 1 0 c 0 f hc (by omega)
  simpa using h

theorem blockContrib_outside (C N off : ℕ) (f : ℕ → ℕ → ℚ) (idx : ℕ)
    (h : idx < off * N ∨ (off + C) * N ≤ idx) :
    blockContrib C N off f idx = 0 := by
  unfold blockContrib
  rcases h with h | h
  · rw [if_neg]; rintro ⟨h1, -, -⟩; omega
  · rw [if_neg]; rintro ⟨-, h2, -⟩; omega

/-! ### The mixed-element dispatch fold -/

theorem totalSpaceDim_cons (e : ElementData × (ℕ → ℚ))
    (l : List (ElementData × (ℕ → ℚ))) :
    totalSpaceDim (e :: l) = e.1.spaceDimension + totalSpaceDim l := by
  simp [totalSpaceDim]

theorem totalValueDim_cons (e : ElementData × (ℕ → ℚ))
    (l : List (ElementData × (ℕ → ℚ))) :
    totalValueDim (e :: l) = valueDim e.1.valueShape + totalValueDim l := by
  simp [totalValueDim]

/-- A dof below or above every sub-element range matches no emitted guard,
so the buffer keeps its reset value everywhere. -/
theorem mixedElements_out_of_range (g : ℕ) (J Jinv : Mat) (detJ : ℚ) (d n : ℕ) :
    ∀ (elems : List (ElementData × (ℕ → ℚ))) (svd ssd : ℕ) (v : ℕ → ℚ),
      mixedElements g J Jinv detJ d n elems svd ssd = some v →
      (g < ssd ∨ ssd + totalSpaceDim elems ≤ g) →
      ∀ idx, v idx = 0 := by
  intro elems
  induction elems with
  | nil =>
    intro svd ssd v hv _ idx
    simp only [mixedElements, Option.some.injEq] at hv
    rw [← hv]
  | cons e rest ih =>
    obtain ⟨data, basis⟩ := e
    intro svd ssd v hv hout idx
    simp only [mixedElements] at hv
    cases hC : numComponents data.valueShape with
    | none => rw [hC] at hv; simp at hv
    | some C =>
      rw [hC] at hv
      cases htail : mixedElements g J Jinv detJ d n rest
          (svd + valueDim data.valueShape) (ssd + data.spaceDimension) with
      | none => rw [htail] at hv; simp at hv
      | some tail =>
        rw [htail] at hv
        simp only [Option.some_bind, Option.some.injEq] at hv
        have hsum : totalSpaceDim ((data, basis) :: rest)
            = data.spaceDimension + totalSpaceDim rest := totalSpaceDim_cons _ _
        have hng : ¬(ssd ≤ g ∧ g < ssd + data.spaceDimension) := by
          rw [hsum] at hout; omega
        have htail0 : tail idx = 0 := by
          refine ih _ _ tail htail ?_ idx
          rw [hsum] at hout; omega
        have hvidx := congrFun hv idx
        simp only at hvidx
        rw [← hvidx, if_neg hng, htail0]
        simp

/-- If every sub-element's component count is defined, the fold succeeds. -/
theorem mixedElements_isSome (g : ℕ) (J Jinv : Mat) (detJ : ℚ) (d n : ℕ) :
    ∀ (elems : List (ElementData × (ℕ → ℚ))) (svd ssd : ℕ),
      (∀ e ∈ elems, (numComponents e.1.valueShape).isSome) →
      (mixedElements g J Jinv detJ d n elems svd ssd).isSome := by
  intro elems
  induction elems with
  | nil => intro svd ssd _; simp [mixedElements]
  | cons e rest ih =>
    obtain ⟨data, basis⟩ := e
    intro svd ssd hwf
    obtain ⟨C, hC⟩ := Option.isSome_iff_exists.mp
      (hwf (data, basis) (List.mem_cons_self _ _))
    obtain ⟨tail, htail⟩ := Option.isSome_iff_exists.mp
      (ih (svd + valueDim data.valueShape) (ssd + data.spaceDimension)
        fun e he => hwf e (List.mem_cons_of_mem _ he))
    simp [mixedElements, hC, htail]

/-- The heart of the dispatcher: when the global dof `g` lies in the dof
range of sub-element `e` (offsets given by the prefix sums over `pre`), the
whole buffer equals that single sub-element's block contribution with local
dof `g` minus the dof offset; every other guard is false because the ranges
are consecutive and disjoint. -/
theorem mixedElements_block (g : ℕ) (J Jinv : Mat) (detJ : ℚ) (d n : ℕ) :
    ∀ (pre : List (ElementData × (ℕ → ℚ))) (e : ElementData × (ℕ → ℚ))
      (post : List (ElementData × (ℕ → ℚ))) (svd ssd C : ℕ) (v : ℕ → ℚ),
      numComponents e.1.valueShape = some C →
      mixedElements g J Jinv detJ d n (pre ++ e :: post) svd ssd = some v →
      ssd + totalSpaceDim pre ≤ g →
      g < ssd + totalSpaceDim pre + e.1.spaceDimension →
      ∀ idx, v idx
        = blockContrib C (numDerivatives d n) (svd + totalValueDim pre)
            (transformDerivatives e.1 (g - (ssd + totalSpaceDim pre)) e.2
              J Jinv detJ d n) idx := by
  intro pre
  induction pre with
  | nil =>
    intro e post svd ssd C v hC hv hlo hhi idx
    obtain ⟨data, basis⟩ := e
    simp only at hC hlo hhi
    simp only [List.nil_append, mixedElements, hC, Option.some_bind] at hv
    cases htail : mixedElements g J Jinv detJ d n post
        (svd + valueDim data.valueShape) (ssd + data.spaceDimension) with
    | none => rw [htail] at hv; simp at hv
    | some tail =>
      rw [htail] at hv
      simp only [Option.some_bind, Option.some.injEq] at hv
      have h0s : totalSpaceDim ([] : List (ElementData × (ℕ → ℚ))) = 0 := by
        simp [totalSpaceDim]
      have h0v : totalValueDim ([] : List (ElementData × (ℕ → ℚ))) = 0 := by
        simp [totalValueDim]
      have hg : ssd ≤ g ∧ g < ssd + data.spaceDimension := by
        rw [h0s] at hlo hhi; constructor <;> omega
      have htail0 : tail idx = 0 := by
        refine mixedElements_out_of_range g J Jinv detJ d n post _ _ tail htail
          (Or.inl ?_) idx
        omega
      have hvidx := congrFun hv idx
      simp only at hvidx
      rw [← hvidx, if_pos hg, htail0, add_zero, h0s, h0v, Nat.add_zero, Nat.add_zero]
  | cons e0 pre' ih =>
    intro e post svd ssd C v hC hv hlo hhi idx
    obtain ⟨data0, basis0⟩ := e0
    simp only [List.cons_append, mixedElements, List.append_eq] at hv
    cases hC0 : numComponents data0.valueShape with
    | none => rw [hC0] at hv; simp at hv
    | some C0 =>
      rw [hC0] at hv
      cases htail : mixedElements g J Jinv detJ d n (pre' ++ e :: post)
          (svd + valueDim data0.valueShape) (ssd + data0.spaceDimension) with
      | none => rw [htail] at hv; simp at hv
      | some tail =>
        rw [htail] at hv
        simp only [Option.some_bind, Option.some.injEq] at hv
        have hsum : totalSpaceDim ((data0, basis0) :: pre')
            = data0.spaceDimension + totalSpaceDim pre' := totalSpaceDim_cons _ _
        have hvds : totalValueDim ((data0, basis0) :: pre')
            = valueDim data0.valueShape + totalValueDim pre' := totalValueDim_cons _ _
        have hng : ¬(ssd ≤ g ∧ g < ssd + data0.spaceDimension) := by
          rw [hsum] at hlo; omega
        have htl := ih e post (svd + valueDim data0.valueShape)
          (ssd + data0.spaceDimension) C tail hC htail
          (by rw [hsum] at hlo; omega) (by rw [hsum] at hhi; omega) idx
        have hoff : svd + valueDim data0.valueShape + totalValueDim pre'
            = svd + totalValueDim ((data0, basis0) :: pre') := by rw [hvds]; omega
        have hdof : ssd + data0.spaceDimension + totalSpaceDim pre'
            = ssd + totalSpaceDim ((data0, basis0) :: pre') := by rw [hsum]; omega
        have hvidx := congrFun hv idx
        simp only at hvidx
        rw [← hvidx, if_neg hng, htl, hoff, hdof]
        simp

/-! ### The single-dof entry point -/

theorem evaluateBasisDerivatives_one (data : ElementData) (basis : ℕ → ℚ)
    (g : ℕ) (J Jinv : Mat) (detJ : ℚ) (n : ℕ) :
    evaluateBasisDerivatives [(data, basis)] g J Jinv detJ n
      = (numComponents data.valueShape).map fun C =>
          blockContrib C (numDerivatives data.topologicalDimension n) 0
            (transformDerivatives data g basis J Jinv detJ
              data.topologicalDimension n) := rfl

theorem evaluateBasisDerivatives_cons (data0 : ElementData) (b0 : ℕ → ℚ)
    (tail : List (ElementData × (ℕ → ℚ))) (ht : tail ≠ [])
    (g : ℕ) (J Jinv : Mat) (detJ : ℚ) (n : ℕ) :
    evaluateBasisDerivatives ((data0, b0) :: tail) g J Jinv detJ n
      = mixedElements g J Jinv detJ data0.topologicalDimension n
          ((data0, b0) :: tail) 0 0 := by
  cases tail with
  | nil => exact absurd rfl ht
  | cons e1 rest => rfl

theorem evaluateBasisDerivatives_isSome (elems : List (ElementData × (ℕ → ℚ)))
    (g : ℕ) (J Jinv : Mat) (detJ : ℚ) (n : ℕ)
    (hwf : ∀ e ∈ elems, (numComponents e.1.valueShape).isSome) :
    (evaluateBasisDerivatives elems g J Jinv detJ n).isSome := by
  rcases elems with _ | ⟨⟨data, basis⟩, _ | ⟨e1, rest⟩⟩
  · simp [evaluateBasisDerivatives, mixedElements]
  · obtain ⟨C, hC⟩ := Option.isSome_iff_exists.mp (hwf (data, basis) (by simp))
    rw [evaluateBasisDerivatives_one]
    simp [hC]
  · rw [evaluateBasisDerivatives_cons data basis (e1 :: rest) (by simp)]
    exact mixedElements_isSome g J Jinv detJ _ n _ 0 0 hwf

/-- When the global dof lies in the dof range of sub-element `e` (with `pre`
before it), the single-dof evaluator succeeds and the whole buffer is that
sub-element's block contribution at its component offset. -/
theorem evaluateBasisDerivatives_block
    (pre : List (ElementData × (ℕ → ℚ))) (e : ElementData × (ℕ → ℚ))
    (post : List (ElementData × (ℕ → ℚ))) (g : ℕ) (J Jinv : Mat) (detJ : ℚ)
    (n C : ℕ)
    (hC : numComponents e.1.valueShape = some C)
    (hwf : ∀ e' ∈ pre ++ e :: post, (numComponents e'.1.valueShape).isSome)
    (hlo : totalSpaceDim pre ≤ g)
    (hhi : g < totalSpaceDim pre + e.1.spaceDimension) :
    ∃ v, evaluateBasisDerivatives (pre ++ e :: post) g J Jinv detJ n = some v ∧
      ∀ idx, v idx
        = blockContrib C (numDerivatives (headTopDim (pre ++ e :: post)) n)
            (totalValueDim pre)
            (transformDerivatives e.1 (g - totalSpaceDim pre) e.2 J Jinv detJ
              (headTopDim (pre ++ e :: post)) n) idx := by
  rcases pre with _ | ⟨⟨d0, b0⟩, pre'⟩
  · rcases post with _ | ⟨p0, post'⟩
    · obtain ⟨edata, ebasis⟩ := e
      simp only at hC hlo hhi
      refine ⟨blockContrib C (numDerivatives edata.topologicalDimension n) 0
        (transformDerivatives edata g ebasis J Jinv detJ
          edata.topologicalDimension n), ?_, ?_⟩
      · rw [List.nil_append, evaluateBasisDerivatives_one, hC]
        rfl
      · intro idx
        rfl
    · obtain ⟨edata, ebasis⟩ := e
      simp only at hC hlo hhi
      obtain ⟨v, hv⟩ := Option.isSome_iff_exists.mp
        (mixedElements_isSome g J Jinv detJ edata.topologicalDimension n
          ((edata, ebasis) :: p0 :: post') 0 0 (by simpa using hwf))
      refine ⟨v, ?_, ?_⟩
      · rw [List.nil_append,
          evaluateBasisDerivatives_cons edata ebasis (p0 :: post') (by simp)]
        exact hv
      · intro idx
        have hb := mixedElements_block g J Jinv detJ edata.topologicalDimension n
          [] (edata, ebasis) (p0 :: post') 0 0 C v hC hv
          (by simpa using hlo) (by simpa using hhi) idx
        simpa [headTopDim] using hb
  · have htne : pre' ++ e :: post ≠ [] := by simp
    obtain ⟨v, hv⟩ := Option.isSome_iff_exists.mp
      (mixedElements_isSome g J Jinv detJ d0.topologicalDimension n
        (((d0, b0) :: pre') ++ e :: post) 0 0 hwf)
    refine ⟨v, ?_, ?_⟩
    · rw [List.cons_append, evaluateBasisDerivatives_cons d0 b0 _ htne]
      exact hv
    · intro idx
      have hb := mixedElements_block g J Jinv detJ d0.topologicalDimension n
        ((d0, b0) :: pre') e post 0 0 C v hC hv
        (by omega) (by omega) idx
      simpa [headTopDim] using hb

/-- C2: for the sub-element owning the global dof, entry `(c, r)` of its
output block equals `Σ_{r'} T[r][r'] · mapped_reference_value[c][r']`, the
contribution accumulated by `_transform_derivatives` onto the buffer that
`_reset_values` zeroed exactly once before any sub-element ran; every index
outside that sub-element's block still holds the reset value 0, which is what
makes the disjoint accumulation of a composite element correct. -/
theorem physical_transform_contract
    (pre : List (ElementData × (ℕ → ℚ))) (e : ElementData × (ℕ → ℚ))
    (post : List (ElementData × (ℕ → ℚ))) (g : ℕ) (J Jinv : Mat) (detJ : ℚ)
    (n C i r : ℕ)
    (hC : numComponents e.1.valueShape = some C)
    (hwf : ∀ e' ∈ pre ++ e :: post, (numComponents e'.1.valueShape).isSome)
    (hlo : totalSpaceDim pre ≤ g)
    (hhi : g < totalSpaceDim pre + e.1.spaceDimension)
    (hi : i < C)
    (hr : r < numDerivatives (headTopDim (pre ++ e :: post)) n) :
    ((evaluateBasisDerivatives (pre ++ e :: post) g J Jinv detJ n).map fun v =>
        v ((totalValueDim pre + i)
            * numDerivatives (headTopDim (pre ++ e :: post)) n + r))
      = some (∑ s ∈ Finset.range (numDerivatives (headTopDim (pre ++ e :: post)) n),
          transformMatrix Jinv (headTopDim (pre ++ e :: post)) n r s
            * mappedReferenceDerivatives e.1 (g - totalSpaceDim pre) e.2 J Jinv
                detJ (baseDigits (headTopDim (pre ++ e :: post)) n s) i) ∧
    ∀ idx,
      (idx < totalValueDim pre * numDerivatives (headTopDim (pre ++ e :: post)) n
        ∨ (totalValueDim pre + C)
            * numDerivatives (headTopDim (pre ++ e :: post)) n ≤ idx) →
      ((evaluateBasisDerivatives (pre ++ e :: post) g J Jinv detJ n).map
          fun v => v idx) = some 0 := by
  obtain ⟨v, hv, hvdesc⟩ :=
    evaluateBasisDerivatives_block pre e post g J Jinv detJ n C hC hwf hlo hhi
  constructor
  · rw [hv, Option.map_some']
    rw [hvdesc ((totalValueDim pre + i)
      * numDerivatives (headTopDim (pre ++ e :: post)) n + r)]
    rw [blockContrib_apply _ _ _ _ _ _ hi hr]
    rfl
  · intro idx hidx
    rw [hv, Option.map_some', hvdesc idx, blockContrib_outside _ _ _ _ _ hidx]

/-- Witness for C2: a concrete one-element descriptor at order 0. -/
theorem physical_transform_contract_witness :
    ((evaluateBasisDerivatives [(affineUnitElement, fun _ => 1)] 0 idMat idMat 1
        0).map fun v =>
        v ((totalValueDim [] + 0)
            * numDerivatives (headTopDim [(affineUnitElement, fun _ => 1)]) 0 + 0))
      = some (∑ s ∈ Finset.range
            (numDerivatives (headTopDim [(affineUnitElement, fun _ => 1)]) 0),
          transformMatrix idMat (headTopDim [(affineUnitElement, fun _ => 1)]) 0 0 s
            * mappedReferenceDerivatives affineUnitElement (0 - totalSpaceDim [])
                (fun _ => 1) idMat idMat 1
                (baseDigits (headTopDim [(affineUnitElement, fun _ => 1)]) 0 s) 0) :=
  (physical_transform_contract [] (affineUnitElement, fun _ => 1) [] 0 idMat idMat
    1 0 1 0 0 rfl (by intro e' he'; simp only [List.nil_append,
      List.mem_singleton] at he'; subst he'; rfl)
    (by decide) (by decide) (by decide) (by decide)).1

/-- Witness for C6: the affine branch at a concrete element. -/
theorem piola_component_mixing_witness :
    mappedReferenceDerivatives affineUnitElement 0 (fun _ => 1) idMat idMat 1 []
      = computeReferenceDerivatives affineUnitElement 0 (fun _ => 1) [] :=
  (piola_component_mixing affineUnitElement 0 (fun _ => 1) idMat idMat 1 []).1 rfl

/-! ### Dispatcher routing (C3) -/

/-- C3 (amended): for sub-element space dimensions `[3, 4, 2]`, dofs 0–2 run
sub-element 0 with local dof `g`, dofs 3–6 run sub-element 1 with local dof
`g − 3`, dofs 7–8 run sub-element 2 with local dof `g − 7`, each writing its
block at that sub-element's component offset; a dof `≥ 9` matches no emitted
guard, so the evaluator succeeds and merely leaves the zero-initialized
buffer unchanged (it is silently ignored, not reported as an error). -/
theorem mixed_dispatch_routing
    (e0 e1 e2 : ElementData × (ℕ → ℚ)) (g : ℕ) (J Jinv : Mat) (detJ : ℚ)
    (n K0 K1 K2 : ℕ)
    (h0 : e0.1.spaceDimension = 3) (h1 : e1.1.spaceDimension = 4)
    (h2 : e2.1.spaceDimension = 2)
    (hK0 : numComponents e0.1.valueShape = some K0)
    (hK1 : numComponents e1.1.valueShape = some K1)
    (hK2 : numComponents e2.1.valueShape = some K2) :
    (g < 3 → ∀ idx,
      ((evaluateBasisDerivatives [e0, e1, e2] g J Jinv detJ n).map fun v => v idx)
        = some (blockContrib K0 (numDerivatives (headTopDim [e0, e1, e2]) n) 0
            (transformDerivatives e0.1 g e0.2 J Jinv detJ
              (headTopDim [e0, e1, e2]) n) idx)) ∧
    (3 ≤ g → g < 7 → ∀ idx,
      ((evaluateBasisDerivatives [e0, e1, e2] g J Jinv detJ n).map fun v => v idx)
        = some (blockContrib K1 (numDerivatives (headTopDim [e0, e1, e2]) n)
            (valueDim e0.1.valueShape)
            (transformDerivatives e1.1 (g - 3) e1.2 J Jinv detJ
              (headTopDim [e0, e1, e2]) n) idx)) ∧
    (7 ≤ g → g < 9 → ∀ idx,
      ((evaluateBasisDerivatives [e0, e1, e2] g J Jinv detJ n).map fun v => v idx)
        = some (blockContrib K2 (numDerivatives (headTopDim [e0, e1, e2]) n)
            (valueDim e0.1.valueShape + valueDim e1.1.valueShape)
            (transformDerivatives e2.1 (g - 7) e2.2 J Jinv detJ
              (headTopDim [e0, e1, e2]) n) idx)) ∧
    (9 ≤ g → ∀ idx,
      ((evaluateBasisDerivatives [e0, e1, e2] g J Jinv detJ n).map fun v => v idx)
        = some 0) := by
  have hwf : ∀ e' ∈ ([e0, e1, e2] : List (ElementData × (ℕ → ℚ))),
      (numComponents e'.1.valueShape).isSome := by
    intro e' he'
    simp only [List.mem_cons, List.mem_singleton, List.not_mem_nil, or_false] at he'
    rcases he' with rfl | rfl | rfl
    · simp [hK0]
    · simp [hK1]
    · simp [hK2]
  refine ⟨?_, ?_, ?_, ?_⟩
  · intro hg idx
    obtain ⟨v, hv, hvdesc⟩ := evaluateBasisDerivatives_block [] e0 [e1, e2]
      g J Jinv detJ n K0 hK0 hwf (by simp [totalSpaceDim])
      (by simp only [totalSpaceDim, List.map_nil, List.sum_nil, Nat.zero_add, h0]
          exact hg)
    simp only [List.nil_append] at hv hvdesc
    rw [hv, Option.map_some', hvdesc idx]
    rfl
  · intro hg3 hg7 idx
    have hts : totalSpaceDim [e0] = 3 := by simp [totalSpaceDim, h0]
    have htv : totalValueDim [e0] = valueDim e0.1.valueShape := by
      simp [totalValueDim]
    obtain ⟨v, hv, hvdesc⟩ := evaluateBasisDerivatives_block [e0] e1 [e2]
      g J Jinv detJ n K1 hK1 hwf (by rw [hts]; exact hg3)
      (by rw [hts, h1]; omega)
    simp only [List.cons_append, List.nil_append] at hv hvdesc
    rw [hv, Option.map_some', hvdesc idx, hts, htv]
  · intro hg7 hg9 idx
    have hts : totalSpaceDim [e0, e1] = 7 := by simp [totalSpaceDim, h0, h1]
    have htv : totalValueDim [e0, e1]
        = valueDim e0.1.valueShape + valueDim e1.1.valueShape := by
      simp [totalValueDim]
    obtain ⟨v, hv, hvdesc⟩ := evaluateBasisDerivatives_block [e0, e1] e2 []
      g J Jinv detJ n K2 hK2 hwf (by rw [hts]; exact hg7)
      (by rw [hts, h2]; omega)
    simp only [List.cons_append, List.nil_append] at hv hvdesc
    rw [hv, Option.map_some', hvdesc idx, hts, htv]
  · intro hg idx
    obtain ⟨d0, b0⟩ := e0
    simp only at h0 hK0
    obtain ⟨v, hv⟩ := Option.isSome_iff_exists.mp
      (mixedElements_isSome g J Jinv detJ d0.topologicalDimension n
        [(d0, b0), e1, e2] 0 0 hwf)
    rw [evaluateBasisDerivatives_cons d0 b0 [e1, e2] (by simp), hv,
      Option.map_some']
    have hz := mixedElements_out_of_range g J Jinv detJ d0.topologicalDimension n
      [(d0, b0), e1, e2] 0 0 v hv ?_ idx
    · rw [hz]
    · right
      have : totalSpaceDim [(d0, b0), e1, e2] = 9 := by
        simp [totalSpaceDim, h0, h1, h2]
      omega

/-- Witness for C3: the middle sub-element owns dof 4 in a concrete `[3,4,2]`
composite. -/
theorem mixed_dispatch_routing_witness :
    ((evaluateBasisDerivatives [(scalEl 3, fun _ => 1), (scalEl 4, fun _ => 1),
          (scalEl 2, fun _ => 1)] 4 idMat idMat 1 0).map fun v => v 0)
      = some (blockContrib 1
          (numDerivatives (headTopDim [(scalEl 3, fun _ => 1),
            (scalEl 4, fun _ => 1), (scalEl 2, fun _ => 1)]) 0)
          (valueDim (scalEl 3).valueShape)
          (transformDerivatives (scalEl 4) (4 - 3) (fun _ => 1) idMat idMat 1
            (headTopDim [(scalEl 3, fun _ => 1), (scalEl 4, fun _ => 1),
              (scalEl 2, fun _ => 1)]) 0) 0) :=
  ((mixed_dispatch_routing (scalEl 3, fun _ => 1) (scalEl 4, fun _ => 1)
      (scalEl 2, fun _ => 1) 4 idMat idMat 1 0 1 1 1
      rfl rfl rfl rfl rfl rfl).2.1 (by decide) (by decide)) 0

/-- Counterexample for C3 as stated: in the `[3,4,2]` composite the
out-of-range dof 9 is not detected or reported — the evaluator still
succeeds (`isSome`) and returns the untouched zero buffer. -/
theorem mixed_dispatch_out_of_range_silent :
    (evaluateBasisDerivatives [(scalEl 3, fun _ => 1), (scalEl 4, fun _ => 1),
        (scalEl 2, fun _ => 1)] 9 idMat idMat 1 1).isSome = true ∧
    ((evaluateBasisDerivatives [(scalEl 3, fun _ => 1), (scalEl 4, fun _ => 1),
        (scalEl 2, fun _ => 1)] 9 idMat idMat 1 1).map fun v => v 0)
      = some 0 := by
  have hwf : ∀ e' ∈ ([(scalEl 3, fun _ => 1), (scalEl 4, fun _ => 1),
      (scalEl 2, fun _ => 1)] : List (ElementData × (ℕ → ℚ))),
      (numComponents e'.1.valueShape).isSome := by
    intro e' he'
    simp only [List.mem_cons, List.mem_singleton, List.not_mem_nil, or_false] at he'
    rcases he' with rfl | rfl | rfl <;> rfl
  obtain ⟨v, hv⟩ := Option.isSome_iff_exists.mp
    (mixedElements_isSome 9 idMat idMat 1 (scalEl 3).topologicalDimension 1
      [(scalEl 3, fun _ => 1), (scalEl 4, fun _ => 1), (scalEl 2, fun _ => 1)]
      0 0 hwf)
  have hz := mixedElements_out_of_range 9 idMat idMat 1
    (scalEl 3).topologicalDimension 1
    [(scalEl 3, fun _ => 1), (scalEl 4, fun _ => 1), (scalEl 2, fun _ => 1)]
    0 0 v hv (Or.inr (by decide)) 0
  constructor
  · rw [evaluateBasisDerivatives_cons (scalEl 3) (fun _ => 1)
      [(scalEl 4, fun _ => 1), (scalEl 2, fun _ => 1)] (by simp), hv]
    rfl
  · rw [evaluateBasisDerivatives_cons (scalEl 3) (fun _ => 1)
      [(scalEl 4, fun _ => 1), (scalEl 2, fun _ => 1)] (by simp), hv,
      Option.map_some', hz]

/-! ### Order-0 evaluation (C4) -/

theorem computeReferenceDerivatives_nil (data : ElementData) (dof : ℕ)
    (basis : ℕ → ℚ) (c : ℕ) :
    computeReferenceDerivatives data dof basis [] c
      = basisValue data dof basis c := by
  unfold computeReferenceDerivatives basisValue
  refine Finset.sum_congr rfl fun s hs => ?_
  rw [Finset.sum_eq_single_of_mem s hs]
  · show data.coefficients c dof s * computeDmats data [] s s * basis s = _
    simp [computeDmats, idMat]
  · intro t ht hne
    show data.coefficients c dof s * computeDmats data [] s t * basis t = 0
    simp [computeDmats, idMat, Ne.symm hne]

theorem evaluate_order_zero_affine
    (data : ElementData) (basis : ℕ → ℚ) (g : ℕ) (J Jinv : Mat) (detJ : ℚ)
    (C c : ℕ) (hC : numComponents data.valueShape = some C)
    (hmap : data.mapping = MappingKind.affine) (hc : c < C) :
    ((evaluateBasisDerivatives [(data, basis)] g J Jinv detJ 0).map
        fun v => v c)
      = some (basisValue data g basis c) := by
  have hT : transformMatrix Jinv data.topologicalDimension 0 0 0 = 1 :=
    Finset.prod_range_zero _
  have hN : numDerivatives data.topologicalDimension 0 = 1 := rfl
  have key : blockContrib C (numDerivatives data.topologicalDimension 0) 0
      (transformDerivatives data g basis J Jinv detJ
        data.topologicalDimension 0) c
      = basisValue data g basis c := by
    rw [hN, blockContrib_order_zero C _ c hc]
    show transformDerivatives data g basis J Jinv detJ
      data.topologicalDimension 0 c 0 = basisValue data g basis c
    unfold transformDerivatives
    rw [hN, Finset.sum_range_one, hT, one_mul]
    show piolaTransform data.mapping J Jinv detJ data.topologicalDimension
      (computeReferenceDerivatives data g basis []) c
      = basisValue data g basis c
    rw [hmap]
    show computeReferenceDerivatives data g basis [] c
      = basisValue data g basis c
    exact computeReferenceDerivatives_nil data g basis c
  rw [evaluateBasisDerivatives_one, hC]
  simp only [Option.map_some']
  rw [key]

/-- C4 (amended): for an affine-mapped element, order-0 evaluation returns
exactly the plain basis values (the chain accumulator stays the identity and
the geometric transform matrix is the 1×1 identity); for Piola-mapped
elements the component mixing is still applied at order 0, see the
counterexample. -/
theorem order_zero_affine_plain_basis
    (data : ElementData) (basis : ℕ → ℚ) (g : ℕ) (J Jinv : Mat) (detJ : ℚ)
    (C c : ℕ) (hC : numComponents data.valueShape = some C)
    (hmap : data.mapping = MappingKind.affine) (hc : c < C) :
    ((evaluateBasisDerivatives [(data, basis)] g J Jinv detJ 0).map
        fun v => v c)
      = some (basisValue data g basis c) ∧
    computeDmats data [] = idMat ∧
    transformMatrix Jinv data.topologicalDimension 0 0 0 = 1 :=
  ⟨evaluate_order_zero_affine data basis g J Jinv detJ C c hC hmap hc, rfl,
    Finset.prod_range_zero _⟩

/-- Witness for C4 (amended) at a concrete affine element. -/
theorem order_zero_affine_plain_basis_witness :
    ((evaluateBasisDerivatives [(affineUnitElement, fun _ => 1)] 0 idMat idMat
        1 0).map fun v => v 0)
      = some (basisValue affineUnitElement 0 (fun _ => 1) 0) :=
  (order_zero_affine_plain_basis affineUnitElement (fun _ => 1) 0 idMat idMat 1
    1 0 rfl rfl (by decide)).1

/-- Counterexample for C4 as stated: at order 0 the covariant-Piola element
`covEl` yields component value 2, while its plain basis evaluation is 1 — the
Piola transform IS applied at order 0, so order-0 output does not equal the
plain basis values for every valid descriptor. -/
theorem order_zero_piola_counterexample :
    ((evaluateBasisDerivatives [(covEl, fun _ => 1)] 0 idMat covJinv 1 0).map
        fun v => v 0) = some 2 ∧
    basisValue covEl 0 (fun _ => 1) 0 = 1 ∧ (2 : ℚ) ≠ 1 := by
  refine ⟨?_, ?_, by norm_num⟩
  · have hN : numDerivatives covEl.topologicalDimension 0 = 1 := rfl
    have key : blockContrib 2 (numDerivatives covEl.topologicalDimension 0) 0
        (transformDerivatives covEl 0 (fun _ => 1) idMat covJinv 1
          covEl.topologicalDimension 0) 0 = 2 := by
      rw [hN, blockContrib_order_zero 2 _ 0 (by omega)]
      show transformDerivatives covEl 0 (fun _ => 1) idMat covJinv 1
        covEl.topologicalDimension 0 0 0 = 2
      unfold transformDerivatives
      rw [hN, Finset.sum_range_one,
        show transformMatrix covJinv covEl.topologicalDimension 0 0 0 = 1 from
          Finset.prod_range_zero _, one_mul]
      show (∑ j ∈ Finset.range 2,
          covJinv j 0 * computeReferenceDerivatives covEl 0 (fun _ => 1) [] j)
        = 2
      simp only [computeReferenceDerivatives_nil]
      rw [Finset.sum_range_succ, Finset.sum_range_one]
      norm_num [covJinv, basisValue, covEl, Finset.sum_range_one]
    rw [evaluateBasisDerivatives_one,
      show numComponents covEl.valueShape = some 2 from rfl]
    simp only [Option.map_some']
    rw [key]
  · norm_num [basisValue, covEl, Finset.sum_range_one]

/-! ### Tensor-valued elements (C9) -/

theorem numComponents_isSome_iff (shape : List ℕ) :
    (numComponents shape).isSome = true ↔ shape.length ≤ 1 := by
  rcases shape with _ | ⟨a, _ | ⟨b, t⟩⟩ <;> simp [numComponents]

/-- C9 (amended): a descriptor whose `value_shape` has length ≥ 2 is rejected
by the generator with a configuration error ("Tensor valued elements are not
supported yet"), producing no output; scalar and vector descriptors
(shape length ≤ 1) are processed and produce values. -/
theorem tensor_valued_rejected (shape : List ℕ) (h2 : 2 ≤ shape.length) :
    numComponents shape = none ∧
    (∀ (data : ElementData) (basis : ℕ → ℚ) (g : ℕ) (J Jinv : Mat) (detJ : ℚ)
        (n : ℕ), data.valueShape = shape →
      evaluateBasisDerivatives [(data, basis)] g J Jinv detJ n = none) ∧
    (∀ (elems : List (ElementData × (ℕ → ℚ))) (g : ℕ) (J Jinv : Mat)
        (detJ : ℚ) (n : ℕ),
      (∀ e ∈ elems, e.1.valueShape.length ≤ 1) →
      (evaluateBasisDerivatives elems g J Jinv detJ n).isSome) := by
  have hnone : numComponents shape = none := by
    rcases shape with _ | ⟨a, _ | ⟨b, t⟩⟩
    · simp at h2
    · simp at h2
    · rfl
  refine ⟨hnone, ?_, ?_⟩
  · intro data basis g J Jinv detJ n hs
    rw [evaluateBasisDerivatives_one, hs, hnone]
    rfl
  · intro elems g J Jinv detJ n hlen
    exact evaluateBasisDerivatives_isSome elems g J Jinv detJ n fun e he =>
      (numComponents_isSome_iff e.1.valueShape).mpr (hlen e he)

/-- Witness for C9 (amended) at the shape `[2, 2]`. -/
theorem tensor_valued_rejected_witness : numComponents [2, 2] = none :=
  (tensor_valued_rejected [2, 2] (by decide)).1

/-- Counterexample for C9 as stated: evaluation of a tensor-valued element
aborts with the generator's configuration error (modelled `none`) instead of
producing mapped derivative values. -/
theorem tensor_valued_counterexample :
    evaluateBasisDerivatives [(tensorEl, fun _ => 1)] 0 idMat idMat 1 0
      = none := rfl

/-! ### The all-dof entry point (C7) -/

theorem allFold_eq (elems : List (ElementData × (ℕ → ℚ))) (J Jinv : Mat)
    (detJ : ℚ) (n nv : ℕ)
    (hwf : ∀ e ∈ elems, (numComponents e.1.valueShape).isSome) :
    ∀ (l : List ℕ) (v0 : ℕ → ℚ),
      (l.foldlM (fun v r => (evaluateBasisDerivatives elems r J Jinv detJ n).map
          fun dv idx =>
            if r * nv ≤ idx ∧ idx < r * nv + nv then dv (idx - r * nv)
            else v idx) v0)
        = some (l.foldl (writeStep elems J Jinv detJ n nv) v0) := by
  intro l
  induction l with
  | nil => intro v0; rfl
  | cons r l ih =>
    intro v0
    obtain ⟨dv, hdv⟩ := Option.isSome_iff_exists.mp
      (evaluateBasisDerivatives_isSome elems r J Jinv detJ n hwf)
    have hws : writeStep elems J Jinv detJ n nv v0 r
        = fun idx =>
            if r * nv ≤ idx ∧ idx < r * nv + nv then dv (idx - r * nv)
            else v0 idx := by
      unfold writeStep
      rw [hdv]
      simp only [Option.getD_some]
    rw [List.foldlM_cons, List.foldl_cons, hdv, Option.map_some', hws]
    exact ih _

theorem allFold_apply (elems : List (ElementData × (ℕ → ℚ))) (J Jinv : Mat)
    (detJ : ℚ) (n nv : ℕ) :
    ∀ (S : ℕ) (v0 : ℕ → ℚ) (i k : ℕ), i < S → k < nv →
      ((List.range S).foldl (writeStep elems J Jinv detJ n nv) v0) (i * nv + k)
        = (evaluateBasisDerivatives elems i J Jinv detJ n).getD (fun _ => 0) k := by
  intro S
  induction S with
  | zero => intro v0 i k hi _; exact absurd hi (Nat.not_lt_zero i)
  | succ S ih =>
    intro v0 i k hi hk
    rw [List.range_succ, List.foldl_append, List.foldl_cons, List.foldl_nil]
    unfold writeStep
    by_cases hiS : i = S
    · subst hiS
      rw [if_pos ⟨by omega, by omega⟩, Nat.add_sub_cancel_left]
    · have hiS' : i < S := by omega
      rw [if_neg ?_]
      · exact ih v0 i k hiS' hk
      · rintro ⟨h1, -⟩
        have hmul : (i + 1) * nv ≤ S * nv := Nat.mul_le_mul_right nv (by omega)
        rw [Nat.succ_mul] at hmul
        omega

/-- C7: for every dof `i` and every offset `k` inside a dof block, the
all-dof output at flat index `i * (num_components · dⁿ) + k` equals entry `k`
of the single-dof evaluation of dof `i`: the flat buffer has the dof-major,
then component, then derivative-combination-minor layout. -/
theorem all_dof_layout (elems : List (ElementData × (ℕ → ℚ))) (J Jinv : Mat)
    (detJ : ℚ) (n i k : ℕ)
    (hwf : ∀ e ∈ elems, (numComponents e.1.valueShape).isSome)
    (hi : i < totalSpaceDim elems)
    (hk : k < totalValueDim elems * numDerivatives (headTopDim elems) n) :
    ((evaluateBasisDerivativesAll elems J Jinv detJ n).map fun v =>
        v (i * (totalValueDim elems * numDerivatives (headTopDim elems) n) + k))
      = ((evaluateBasisDerivatives elems i J Jinv detJ n).map fun dv => dv k) := by
  obtain ⟨dvi, hdvi⟩ := Option.isSome_iff_exists.mp
    (evaluateBasisDerivatives_isSome elems i J Jinv detJ n hwf)
  by_cases hS : totalSpaceDim elems = 1
  · have hi0 : i = 0 := by omega
    subst hi0
    have hall : evaluateBasisDerivativesAll elems J Jinv detJ n
        = evaluateBasisDerivatives elems 0 J Jinv detJ n := by
      unfold evaluateBasisDerivativesAll
      rw [if_pos hS]
    rw [hall, hdvi, Option.map_some', Option.map_some', Option.some.injEq]
    norm_num
  · unfold evaluateBasisDerivativesAll
    rw [if_neg hS,
      allFold_eq elems J Jinv detJ n
        (totalValueDim elems * numDerivatives (headTopDim elems) n) hwf
        (List.range (totalSpaceDim elems)) (fun _ => 0),
      Option.map_some',
      allFold_apply elems J Jinv detJ n
        (totalValueDim elems * numDerivatives (headTopDim elems) n)
        (totalSpaceDim elems) (fun _ => 0) i k hi hk,
      hdvi, Option.getD_some, Option.map_some']

/-- Witness for C7: dof 1 of a concrete two-dof element. -/
theorem all_dof_layout_witness :
    ((evaluateBasisDerivativesAll [(scalEl 2, fun _ => 1)] idMat idMat 1 0).map
        fun v => v (1 * (totalValueDim [(scalEl 2, fun _ => 1)]
          * numDerivatives (headTopDim [(scalEl 2, fun _ => 1)]) 0) + 0))
      = ((evaluateBasisDerivatives [(scalEl 2, fun _ => 1)] 1 idMat idMat 1
          0).map fun dv => dv 0) :=
  all_dof_layout [(scalEl 2, fun _ => 1)] idMat idMat 1 0 1 0
    (by intro e' he'; simp only [List.mem_singleton] at he'; subst he'; rfl)
    (by decide) (by decide)

/-! ### Constant elements (C8) -/

theorem computeDmats_zero (data : ElementData)
    (hz : ∀ i t u, data.dmats i t u = 0) :
    ∀ (digits : List ℕ), digits ≠ [] →
      ∀ s t, computeDmats data digits s t = 0 := by
  have hstep : ∀ (c : ℕ) (M : Mat) (t u : ℕ),
      dmatsProductStep data c M t u = 0 := by
    intro c M t u
    unfold dmatsProductStep tabulateDmats
    simp [hz]
  have hfold : ∀ (rest : List ℕ) (M0 : Mat), (∀ t u, M0 t u = 0) →
      ∀ t u, (rest.foldl (fun M c => dmatsProductStep data c M) M0) t u = 0 := by
    intro rest
    induction rest with
    | nil => intro M0 h0 t u; exact h0 t u
    | cons c rest ih =>
      intro M0 _ t u
      rw [List.foldl_cons]
      exact ih _ (fun t u => hstep c M0 t u) t u
  intro digits hne s t
  cases digits with
  | nil => exact absurd rfl hne
  | cons c rest =>
    unfold computeDmats
    rw [List.foldl_cons]
    exact hfold rest _ (fun t u => hstep c idMat t u) s t

theorem piolaTransform_zero (mapping : MappingKind) (J Jinv : Mat) (detJ : ℚ)
    (d : ℕ) (ref : ℕ → ℚ) (h : ∀ j, ref j = 0) :
    ∀ i, piolaTransform mapping J Jinv detJ d ref i = 0 := by
  cases mapping <;> intro i <;> simp [piolaTransform, h]

theorem transformDerivatives_zero (data : ElementData) (dof : ℕ)
    (basis : ℕ → ℚ) (J Jinv : Mat) (detJ : ℚ) (d n : ℕ)
    (hz : ∀ i t u, data.dmats i t u = 0) (hn : 1 ≤ n) :
    ∀ i r, transformDerivatives data dof basis J Jinv detJ d n i r = 0 := by
  intro i r
  unfold transformDerivatives
  refine Finset.sum_eq_zero fun s _ => ?_
  have hdig : baseDigits d n s ≠ [] := by
    intro hcon
    have hlen := baseDigits_length d n s
    rw [hcon] at hlen
    simp at hlen
    omega
  have hmap0 : mappedReferenceDerivatives data dof basis J Jinv detJ
      (baseDigits d n s) i = 0 := by
    unfold mappedReferenceDerivatives
    refine piolaTransform_zero _ _ _ _ _ _ ?_ i
    intro j
    unfold computeReferenceDerivatives
    refine Finset.sum_eq_zero fun a _ => Finset.sum_eq_zero fun b _ => ?_
    rw [computeDmats_zero data hz _ hdig a b]
    ring
  rw [hmap0]
  ring

/-- C8 (amended): for a single element with `space_dimension == 1`, the
all-dof entry point is a single call to the single-dof evaluator with dof 0
(only the dof loop and helper buffer are bypassed — the general pipeline
still runs); when the element really is constant (every `dmats` entry is 0),
order ≥ 1 evaluation returns an all-zero table, and for an affine constant
element order 0 returns the element's stored value (its plain basis value). -/
theorem constant_element_shortcut
    (data : ElementData) (basis : ℕ → ℚ) (J Jinv : Mat) (detJ : ℚ) (n C : ℕ)
    (hdim : data.spaceDimension = 1)
    (hC : numComponents data.valueShape = some C) :
    evaluateBasisDerivativesAll [(data, basis)] J Jinv detJ n
      = evaluateBasisDerivatives [(data, basis)] 0 J Jinv detJ n ∧
    ((∀ i t u, data.dmats i t u = 0) → 1 ≤ n → ∀ idx,
      ((evaluateBasisDerivatives [(data, basis)] 0 J Jinv detJ n).map
          fun v => v idx) = some 0) ∧
    (data.mapping = MappingKind.affine → ∀ c, c < C →
      ((evaluateBasisDerivatives [(data, basis)] 0 J Jinv detJ 0).map
          fun v => v c) = some (basisValue data 0 basis c)) := by
  refine ⟨?_, ?_, ?_⟩
  · have hS : totalSpaceDim [(data, basis)] = 1 := by
      simp [totalSpaceDim, hdim]
    unfold evaluateBasisDerivativesAll
    rw [if_pos hS]
  · intro hz hn idx
    rw [evaluateBasisDerivatives_one, hC]
    simp only [Option.map_some', Option.some.injEq]
    unfold blockContrib
    split
    · exact transformDerivatives_zero data 0 basis J Jinv detJ
        data.topologicalDimension n hz hn _ _
    · rfl
  · intro hmap c hc
    exact evaluate_order_zero_affine data basis 0 J Jinv detJ C c hC hmap hc

/-- Witness for C8 (amended): a concrete one-dof constant element. -/
theorem constant_element_shortcut_witness :
    evaluateBasisDerivativesAll [(scalEl 1, fun _ => 1)] idMat idMat 1 1
      = evaluateBasisDerivatives [(scalEl 1, fun _ => 1)] 0 idMat idMat 1 1 ∧
    ((evaluateBasisDerivatives [(scalEl 1, fun _ => 1)] 0 idMat idMat 1 1).map
        fun v => v 0) = some 0 ∧
    ((evaluateBasisDerivatives [(scalEl 1, fun _ => 1)] 0 idMat idMat 1 0).map
        fun v => v 0) = some (basisValue (scalEl 1) 0 (fun _ => 1) 0) :=
  ⟨(constant_element_shortcut (scalEl 1) (fun _ => 1) idMat idMat 1 1 1
      rfl rfl).1,
    (constant_element_shortcut (scalEl 1) (fun _ => 1) idMat idMat 1 1 1
      rfl rfl).2.1 (fun _ _ _ => rfl) (by omega) 0,
    (constant_element_shortcut (scalEl 1) (fun _ => 1) idMat idMat 1 0 1
      rfl rfl).2.2 rfl 0 (by omega)⟩

/-- Counterexample for C8 as stated: the `space_dimension == 1` special case
does not bypass the pipeline and does not return zeros at order ≥ 1 — for
this one-dof element with a nonzero differentiation matrix the order-1
all-dof output is 2, not 0. -/
theorem constant_element_counterexample :
    ((evaluateBasisDerivativesAll [(fakeConstEl, fun _ => 1)] idMat idMat 1
        1).map fun v => v 0) = some 2 ∧ (2 : ℚ) ≠ 0 := by
  refine ⟨?_, by norm_num⟩
  have hall : evaluateBasisDerivativesAll [(fakeConstEl, fun _ => 1)] idMat
      idMat 1 1 = evaluateBasisDerivatives [(fakeConstEl, fun _ => 1)] 0 idMat
      idMat 1 1 := by
    unfold evaluateBasisDerivativesAll
    rw [if_pos (by simp [totalSpaceDim, fakeConstEl])]
  have hN : numDerivatives fakeConstEl.topologicalDimension 1 = 1 := rfl
  have key : blockContrib 1 (numDerivatives fakeConstEl.topologicalDimension 1)
      0 (transformDerivatives fakeConstEl 0 (fun _ => 1) idMat idMat 1
        fakeConstEl.topologicalDimension 1) 0 = 2 := by
    rw [hN, blockContrib_order_zero 1 _ 0 (by omega)]
    show transformDerivatives fakeConstEl 0 (fun _ => 1) idMat idMat 1
      fakeConstEl.topologicalDimension 1 0 0 = 2
    unfold transformDerivatives
    rw [hN, Finset.sum_range_one]
    norm_num [transformMatrix, Finset.prod_range_one, baseDigits, idMat,
      mappedReferenceDerivatives, piolaTransform, fakeConstEl,
      computeReferenceDerivatives, computeDmats, dmatsProductStep,
      tabulateDmats, Finset.sum_range_one, List.foldl_cons, List.foldl_nil]
  rw [hall, evaluateBasisDerivatives_one,
    show numComponents fakeConstEl.valueShape = some 1 from rfl]
  simp only [Option.map_some']
  rw [key]

end FFC
